import Mathlib

/-!
Verification of the bpp-seq specification against the sources
`AllelicAlphabet.h` and `CompressedVectorSiteContainer.h`.

Strings of the C++ sources are modelled as lists of character codes
(`List Nat`), machine integers as `Nat`/`Int`, `double` likelihood values
as `ℚ`, and every C++ function that can throw is modelled as a function
into `Except Err _`.  Out-of-bounds `std::vector::operator[]` accesses,
which are undefined behaviour in C++ and in particular do not throw, are
modelled by the distinguished error value `Err.undefinedBehavior`.
-/

/-- Exception taxonomy of the modelled code: `BadCharException`,
`BadIntException`, `IndexOutOfBoundsException`, `NotImplementedException`,
`DimensionMismatchException`, plus a marker for C++ undefined behaviour. -/
inductive Err where
  | badChar
  | badInt
  | indexOutOfRange
  | notImplemented
  | dimensionMismatch
  | undefinedBehavior
deriving DecidableEq

/-- Decimal digit count of `n`, as computed by `std::to_string(n).size()`
in `AllelicAlphabet::getStateCodingSize`.  Implemented with explicit fuel
so that it reduces by kernel computation. -/
def numDigitsAux : Nat → Nat → Nat
  | 0, _ => 1
  | fuel + 1, n => if n < 10 then 1 else numDigitsAux fuel (n / 10) + 1

/-- Number of decimal digits of `n`. -/
def numDigits (n : Nat) : Nat := numDigitsAux n n

/-- Fixed-width decimal rendering of `n` on `d` digits (leading zeros),
as a list of ASCII character codes. -/
def padNat (d n : Nat) : List Nat :=
  (List.range d).map (fun t => 48 + n / 10 ^ (d - 1 - t) % 10)

/-- Model of the base `Alphabet` consumed by `AllelicAlphabet`: number of
resolved states, width of one state symbol (`getStateCodingSize` of the
base alphabet), and the rendering of resolved states, of the gap and of
the unknown symbol as character-code lists. -/
structure BaseAlphabet where
  size : Nat
  width : Nat
  sym : Nat → List Nat
  gapSym : List Nat
  unkSym : List Nat

/-- Concrete DNA base alphabet (A, C, G, T as ASCII codes, gap `-`,
unknown `?`), used to evaluate the theorems on concrete inputs. -/
def dnaAlph : BaseAlphabet where
  size := 4
  width := 1
  sym := fun r => [[65, 67, 71, 84].getD r 63]
  gapSym := [45]
  unkSym := [63]

namespace Allelic

/-- Character label of an allelic state: `stateSymbol1 + count1 +
stateSymbol2 + count2` with decimal counts of fixed width `numDigits N`
(spec: "string label of fixed width `2 * (baseStateWidth +
decimalWidth(nbAlleles))`, formed by concatenating `stateSymbol1 + count1
+ stateSymbol2 + count2`"). -/
def mkLabel (N : Nat) (s1 : List Nat) (c1 : Nat) (s2 : List Nat) (c2 : Nat) : List Nat :=
  s1 ++ padNat (numDigits N) c1 ++ s2 ++ padNat (numDigits N) c2

/-- Label of the pair state "`k` copies of base state `i`, `N - k` copies
of base state `j`". -/
def pairLabel (a : BaseAlphabet) (N i j k : Nat) : List Nat :=
  mkLabel N (a.sym i) k (a.sym j) (N - k)

/-- Label of the unmodified (homozygous) base state `i`: the base symbol
doubled with the full count (spec: "return the bare base symbol doubled
with full count (homozygous shorthand)"). -/
def homLabel (a : BaseAlphabet) (N i : Nat) : List Nat :=
  mkLabel N (a.sym i) N (a.sym i) 0

/-- Label of the gap state. -/
def gapLabel (a : BaseAlphabet) (N : Nat) : List Nat :=
  mkLabel N a.gapSym N a.gapSym 0

/-- Label of the unknown state. -/
def unkLabel (a : BaseAlphabet) (N : Nat) : List Nat :=
  mkLabel N a.unkSym N a.unkSym 0

/-- Splits of the unordered pair `(i, j)`: triples `(i, j, k)` for the
allele splits `k = 1 .. N-1`, in increasing `k` (spec: "every allele
split `k` from `1` to `N-1`"). -/
def splitsFor (N i j : Nat) : List (Nat × Nat × Nat) :=
  (List.range' 1 (N - 1)).map (fun k => (i, j, k))

/-- Pair states whose first (lower ranked) state is `i`: the second state
`j` runs over `i+1 .. B-1`. -/
def jBlock (B N i : Nat) : List (Nat × Nat × Nat) :=
  (List.range' (i + 1) (B - 1 - i)).flatMap (splitsFor N i)

/-- Enumeration of all pair states of a base alphabet of size `B`,
starting at first state `i0`, with `fuel` remaining values of `i0`. -/
def outerAux (B N : Nat) : Nat → Nat → List (Nat × Nat × Nat)
  | 0, _ => []
  | fuel + 1, i0 => jBlock B N i0 ++ outerAux B N fuel (i0 + 1)

/-- Modelled from the spec: the ordered enumeration of the pair states of
the `AllelicAlphabet` ("for every unordered pair of distinct base states
`(i, j)` with `i` ranked before `j` in the base alphabet, and every
allele split `k` from `1` to `N-1`, a unique code").  The constructor
`AllelicAlphabet::AllelicAlphabet`, which registers the states in this
order, is declared in `AllelicAlphabet.h` but its definition is not part
of the available sources. -/
def pairTriples (B N : Nat) : List (Nat × Nat × Nat) :=
  outerAux B N B 0

/-- Number of pairs `(i', j')` with `i0 ≤ i' < i0 + c` and
`i' < j' < B`: the running total of the block sizes of the enumeration. -/
def segSum (B : Nat) : Nat → Nat → Nat
  | _, 0 => 0
  | i0, c + 1 => (B - 1 - i0) + segSum B (i0 + 1) c

/-- Integer code of the pair state `(i, j, k)`: the base-alphabet size
plus the position of the triple in the enumeration. -/
def tripleCode (B N i j k : Nat) : Nat :=
  B + (segSum B 0 i * (N - 1) + (j - i - 1) * (N - 1) + (k - 1))

/-- Number of resolved allelic codes: base states plus all pair states. -/
def allelicSize (B N : Nat) : Nat :=
  B + Nat.choose B 2 * (N - 1)

/-- Modelled from the spec: the full ordered state table of the
`AllelicAlphabet` as built by its constructor (not part of the available
sources), pairing each integer code with its character label: gap at
`-1`, the base states at `0 .. size-1`, the pair states consecutively
after them, the unknown state last. -/
def allelicStates (a : BaseAlphabet) (N : Nat) : List (Int × List Nat) :=
  ((-1 : Int), gapLabel a N)
    :: ((List.range a.size).map (fun i => (Int.ofNat i, homLabel a N i))
      ++ (List.enumFrom a.size (pairTriples a.size N)).map
          (fun e => ((e.1 : Int), pairLabel a N e.2.1 e.2.2.1 e.2.2.2))
      ++ [((allelicSize a.size N : Int), unkLabel a N)])

/-- Lookup of a label in the registered state table, as performed by
`AbstractAlphabet::charToInt`; an unregistered label raises
`BadCharException`. -/
def absCharToInt (a : BaseAlphabet) (N : Nat) (s : List Nat) : Except Err Int :=
  match (allelicStates a N).find? (fun e => e.2 = s) with
  | some e => .ok e.1
  | none => .error .badChar

/-- Lookup of an integer code in the registered state table, as performed
by `AbstractAlphabet::intToChar`; an unregistered code raises
`BadIntException`. -/
def intToChar (a : BaseAlphabet) (N : Nat) (c : Int) : Except Err (List Nat) :=
  match (allelicStates a N).find? (fun e => e.1 = c) with
  | some e => .ok e.2
  | none => .error .badInt

/-- Source `AllelicAlphabet::getStateCodingSize`:
`2*((uint)alph_.getStateCodingSize()+(uint)std::to_string(nbAlleles_).size())`. -/
def getStateCodingSize (a : BaseAlphabet) (N : Nat) : Nat :=
  2 * (a.width + numDigits N)

/-- Source `AllelicAlphabet::charToInt`: reject any label whose length is
not `getStateCodingSize()` with `BadCharException`, otherwise delegate to
`AbstractAlphabet::charToInt`. -/
def charToInt (a : BaseAlphabet) (N : Nat) (s : List Nat) : Except Err Int :=
  if s.length ≠ getStateCodingSize a N then .error .badChar
  else absCharToInt a N s

/-- Indices of the strictly positive entries of a count vector
(spec: "let `nonZero` = indices with `counts[i] > 0`"). -/
def nonZeroIndices (counts : List ℚ) : List Nat :=
  (List.range counts.length).filter (fun i => 0 < counts.getD i 0)

/-- Binomial sampling probability of `k` successes out of `N` draws with
success probability `p`. -/
def binomQ (N k : Nat) (p : ℚ) : ℚ :=
  (N.choose k : ℚ) * p ^ k * (1 - p) ^ (N - k)

/-- Modelled from the spec: `AllelicAlphabet::computeLikelihoods`, whose
definition is not part of the available sources (the header only declares
it).  Per the spec, over an output vector of length `size()+1` initially
zero: counts spread over more than two states put likelihood `1` on the
unknown code; counts on exactly one state put likelihood `1` on that
state's homozygous code; counts on exactly two states `i < j` put the
binomial mass `C(N,k) p^k (1-p)^(N-k)` (`p = counts[i]/total`) on the
code of split `k` for `k = 1 .. N-1`, and the homozygous outcomes
`p^N`, `(1-p)^N` on the plain base-state codes `i`, `j`.  The spec does
not fix the behaviour on an all-zero count vector; the model treats it
like the unresolvable case. -/
def computeLikelihoods (B N : Nat) (counts : List ℚ) : List ℚ :=
  let out := List.replicate (allelicSize B N + 1) (0 : ℚ)
  match nonZeroIndices counts with
  | [i] => out.set i 1
  | [i, j] =>
    let c1 := counts.getD i 0
    let c2 := counts.getD j 0
    let p := c1 / (c1 + c2)
    (List.range' 1 (N - 1)).foldl
      (fun o k => o.set (tripleCode B N i j k) (binomQ N k p))
      ((out.set i (p ^ N)).set j ((1 - p) ^ N))
  | _ => out.set (allelicSize B N) 1

/-- Source `AllelicAlphabet::getSize`: `getNumberOfChars() - 2`, where
`getNumberOfChars` is the number of registered states. -/
def getSize (a : BaseAlphabet) (N : Nat) : Nat :=
  (allelicStates a N).length - 2

/-- Source `AllelicAlphabet::getNumberOfTypes`: `getNumberOfChars() - 1`. -/
def getNumberOfTypes (a : BaseAlphabet) (N : Nat) : Nat :=
  (allelicStates a N).length - 1

/-- Pairing formula exactly as printed in the specification:
`baseSize + (rank(state1)*(baseSize-1) - rank(state1)*(rank(state1)+1)/2 +
(rank(state2)-rank(state1)-1))*(nbAlleles-1) + (count1 - 1)`. -/
def specFormulaCode (B N i j k : Nat) : Nat :=
  B + (i * (B - 1) - i * (i + 1) / 2 + (j - i - 1)) * (N - 1) + (k - 1)

end Allelic

namespace CVS

/-- Model of `CompressedVectorSiteContainer`: the fixed number of
sequences (rows), the deduplicated unique sites (each site is the list of
its per-sequence integer states; the coordinate tag of an input site is
not preserved by the store), and `index_`, which maps every logical site
position to its slot in the unique-site store. -/
structure CStore where
  nRows : Nat
  uniqueSites : List (List Int)
  index_ : List Nat
deriving DecidableEq

/-- Source constructor `CompressedVectorSiteContainer(size, alpha)`:
empty container with a fixed number of sequences. -/
def emptyStore (nRows : Nat) : CStore :=
  ⟨nRows, [], []⟩

/-- Source `CompressedVectorSiteContainer::getNumberOfSites`:
`index_.size()`. -/
def getNumberOfSites (s : CStore) : Nat := s.index_.length

/-- Source `CompressedVectorSiteContainer::getNumberOfUniqueSites`: the
size of the positioned container of unique sites. -/
def getNumberOfUniqueSites (s : CStore) : Nat := s.uniqueSites.length

/-- Modelled from the spec: `CompressedVectorSiteContainer::getSiteIndex_`,
whose definition is not part of the available sources.  Per its header
documentation it returns "the position of the site in the compressed set.
If the site is not found, this will return the number of sites in the
compressed set"; the scan compares per-sequence content only. -/
def getSiteIndex_ (s : CStore) (content : List Int) : Nat :=
  (s.uniqueSites.findIdx? (fun c => c = content)).getD s.uniqueSites.length

/-- Modelled from the spec: `CompressedVectorSiteContainer::addSite`
(appendColumn), whose definition is not part of the available sources.
Per the spec it checks the row count (`DimensionMismatchError`), then
reuses an existing matching unique entry or appends the column content
(without its coordinate tag), and pushes the slot onto the position
index. -/
def addSite (s : CStore) (content : List Int) : Except Err CStore :=
  if content.length ≠ s.nRows then .error .dimensionMismatch
  else
    let slot := getSiteIndex_ s content
    if slot < s.uniqueSites.length then
      .ok ⟨s.nRows, s.uniqueSites, s.index_ ++ [slot]⟩
    else
      .ok ⟨s.nRows, s.uniqueSites ++ [content], s.index_ ++ [slot]⟩

/-- Modelled from the spec: `insertColumnAt` (`addSite` at a position),
whose definition is not part of the available sources.  Per the spec it
inserts the slot reference at logical index `pos` (`0 ≤ pos ≤
numberOfColumns`), shifting subsequent references right. -/
def insertSiteAt (s : CStore) (pos : Nat) (content : List Int) : Except Err CStore :=
  if content.length ≠ s.nRows then .error .dimensionMismatch
  else if pos ≤ s.index_.length then
    let slot := getSiteIndex_ s content
    if slot < s.uniqueSites.length then
      .ok ⟨s.nRows, s.uniqueSites, s.index_.insertIdx pos slot⟩
    else
      .ok ⟨s.nRows, s.uniqueSites ++ [content], s.index_.insertIdx pos slot⟩
  else .error .indexOutOfRange

/-- Modelled from the spec: `CompressedVectorSiteContainer::removeSite`
(removeColumnAt), whose definition is not part of the available sources.
Per the spec it "removes the slot reference at `pos` only; does not touch
`uniqueSites` even if the removed slot becomes unreferenced", and an
out-of-bounds `pos` raises `IndexOutOfBoundsException` before any
mutation. -/
def removeSite (s : CStore) (pos : Nat) : Except Err CStore :=
  if pos < s.index_.length then
    .ok ⟨s.nRows, s.uniqueSites, s.index_.eraseIdx pos⟩
  else .error .indexOutOfRange

/-- Source `CompressedVectorSiteContainer::removeSequence`: the body
unconditionally throws `NotImplementedException`
("Implementing this function would involve (partially) decompressing the
data...").  No row is ever removed and the store is never mutated. -/
def removeSequence (_s : CStore) (_sequenceIndex : Nat) : Except Err CStore :=
  .error .notImplemented

/-- Source `CompressedVectorSiteContainer::getSite`:
`*VectorPositionedContainer<Site>::getObject(index_[siteIndex])`, with no
bounds check on `siteIndex`; an out-of-bounds access to `index_` is C++
undefined behaviour, modelled by `Err.undefinedBehavior`. -/
def getSite (s : CStore) (siteIndex : Nat) : Except Err (List Int) :=
  match s.index_[siteIndex]? with
  | none => .error .undefinedBehavior
  | some slot =>
    match s.uniqueSites[slot]? with
    | none => .error .undefinedBehavior
    | some content => .ok content

/-- Source `CompressedVectorSiteContainer::valueAt(size_t, size_t)`:
checks `sequenceIndex >= getNumberOfSequences()` and `elementIndex >=
getNumberOfSites()` and throws `IndexOutOfBoundsException` before any
access, then reads
`(*getObject(index_[elementIndex]))[sequenceIndex]`. -/
def valueAt (s : CStore) (sequenceIndex elementIndex : Nat) : Except Err Int :=
  if sequenceIndex ≥ s.nRows then .error .indexOutOfRange
  else if elementIndex ≥ s.index_.length then .error .indexOutOfRange
  else
    match s.index_[elementIndex]? with
    | none => .error .undefinedBehavior
    | some slot =>
      match s.uniqueSites[slot]? with
      | none => .error .undefinedBehavior
      | some content =>
        match content[sequenceIndex]? with
        | none => .error .undefinedBehavior
        | some v => .ok v

/-- Reachable states of the compressed store: states built from an empty
container by appending and inserting columns, and, when `allowRemove` is
set, by removing column positions. -/
inductive Reach (n : Nat) (allowRemove : Bool) : CStore → Prop where
  | empty : Reach n allowRemove (emptyStore n)
  | append {s s' : CStore} {c : List Int} :
      Reach n allowRemove s → addSite s c = .ok s' → Reach n allowRemove s'
  | insert {s s' : CStore} {p : Nat} {c : List Int} :
      Reach n allowRemove s → insertSiteAt s p c = .ok s' → Reach n allowRemove s'
  | remove {s s' : CStore} {p : Nat} :
      allowRemove = true → Reach n allowRemove s → removeSite s p = .ok s' →
      Reach n allowRemove s'

end CVS

/-! ## Helper theorems -/

theorem padNat_length (d n : Nat) : (padNat d n).length = d := by
  simp [padNat]


/-! Helper lemmas about the pair-state enumeration. -/

theorem length_flatMap_uniform {α β : Type _} (f : α → List β) (cLen : Nat)
    (hf : ∀ x, (f x).length = cLen) :
    ∀ l : List α, (l.flatMap f).length = l.length * cLen := by
  intro l
  induction l with
  | nil => simp
  | cons y ys ih =>
    simp [List.flatMap_cons, ih, hf, Nat.succ_mul, Nat.add_comm]

theorem getElem?_flatMap_uniform {α β : Type _} (f : α → List β) (cLen : Nat)
    (hf : ∀ x, (f x).length = cLen) :
    ∀ (l : List α) (q r : Nat), r < cLen → ∀ x, l[q]? = some x →
      (l.flatMap f)[q * cLen + r]? = (f x)[r]? := by
  intro l
  induction l with
  | nil => intro q r _ x hx; simp at hx
  | cons y ys ih =>
    intro q r hr x hx
    cases q with
    | zero =>
      simp only [List.getElem?_cons_zero, Option.some.injEq] at hx
      subst hx
      simp only [List.flatMap_cons, Nat.zero_mul, Nat.zero_add]
      exact List.getElem?_append_left (by rw [hf]; exact hr)
    | succ q =>
      simp only [List.getElem?_cons_succ] at hx
      have hge : (f y).length ≤ (q + 1) * cLen + r := by
        rw [hf, Nat.succ_mul]
        omega
      rw [List.flatMap_cons, List.getElem?_append_right hge, hf]
      have : (q + 1) * cLen + r - cLen = q * cLen + r := by
        rw [Nat.succ_mul]; omega
      rw [this]
      exact ih q r hr x hx

theorem mem_of_nodup_fst {α β : Type _} [DecidableEq α] :
    ∀ (l : List (α × β)) (c : α) (x y : β), (l.map Prod.fst).Nodup →
      (c, x) ∈ l → (c, y) ∈ l → x = y := by
  intro l
  induction l with
  | nil => intro c x y _ hx; simp at hx
  | cons e es ih =>
    intro c x y hnd hx hy
    simp only [List.map_cons, List.nodup_cons] at hnd
    rcases List.mem_cons.mp hx with hx1 | hx2 <;>
      rcases List.mem_cons.mp hy with hy1 | hy2
    · rw [← hx1] at hy1; exact (Prod.mk.injEq _ _ _ _).mp hy1.symm |>.2
    · exfalso
      apply hnd.1
      have : e.1 = c := by rw [← hx1]
      rw [this]
      exact List.mem_map.mpr ⟨(c, y), hy2, rfl⟩
    · exfalso
      apply hnd.1
      have : e.1 = c := by rw [← hy1]
      rw [this]
      exact List.mem_map.mpr ⟨(c, x), hx2, rfl⟩
    · exact ih c x y hnd.2 hx2 hy2

namespace Allelic

theorem splitsFor_length (N i j : Nat) : (splitsFor N i j).length = N - 1 := by
  simp [splitsFor]

theorem jBlock_length (B N i : Nat) :
    (jBlock B N i).length = (B - 1 - i) * (N - 1) := by
  unfold jBlock
  rw [length_flatMap_uniform (splitsFor N i) (N - 1) (fun j => splitsFor_length N i j)]
  simp

theorem outerAux_length (B N : Nat) :
    ∀ fuel i0, (outerAux B N fuel i0).length = segSum B i0 fuel * (N - 1) := by
  intro fuel
  induction fuel with
  | zero => intro i0; simp [outerAux, segSum]
  | succ fuel ih =>
    intro i0
    simp only [outerAux, List.length_append, jBlock_length, ih, segSum, Nat.add_mul]

theorem segSum_top (B : Nat) :
    ∀ c i0, segSum B i0 (c + 1) = segSum B i0 c + (B - 1 - (i0 + c)) := by
  intro c
  induction c with
  | zero => intro i0; simp [segSum]
  | succ c ih =>
    intro i0
    have h1 : segSum B i0 (c + 1 + 1) = (B - 1 - i0) + segSum B (i0 + 1) (c + 1) := rfl
    rw [h1, ih (i0 + 1)]
    have h2 : segSum B i0 (c + 1) = (B - 1 - i0) + segSum B (i0 + 1) c := rfl
    rw [h2]
    omega

theorem segSum_choose_aux (B : Nat) :
    ∀ i, i ≤ B → segSum B 0 i = Nat.choose i 2 + i * (B - i) := by
  intro i
  induction i with
  | zero => intro _; simp [segSum]
  | succ i ih =>
    intro hiB
    rw [segSum_top, ih (Nat.le_of_succ_le hiB)]
    have hp : Nat.choose (i + 1) 2 = i + Nat.choose i 2 := by
      rw [Nat.choose_succ_succ, Nat.choose_one_right]
    rw [hp]
    have hm : B - i = (B - (i + 1)) + 1 := by omega
    rw [hm]
    have hm2 : i * ((B - (i + 1)) + 1) = i * (B - (i + 1)) + i := by ring
    have hm3 : (i + 1) * (B - (i + 1)) = i * (B - (i + 1)) + (B - (i + 1)) := by ring
    rw [hm2, hm3]
    omega

theorem segSum_choose (B : Nat) : segSum B 0 B = Nat.choose B 2 := by
  rw [segSum_choose_aux B B (Nat.le_refl B)]
  simp

theorem pairTriples_length (B N : Nat) :
    (pairTriples B N).length = Nat.choose B 2 * (N - 1) := by
  rw [pairTriples, outerAux_length, segSum_choose B]

theorem segSum_closed (B : Nat) :
    ∀ i, i ≤ B → segSum B 0 i = i * B - i * (i + 1) / 2 := by
  intro i hiB
  rw [segSum_choose_aux B i hiB, Nat.choose_two_right]
  have e1 : i * (i - 1) + i = i * i := by
    cases i with
    | zero => rfl
    | succ m => simp only [Nat.succ_sub_one]; ring
  have e2 : i * (i + 1) = i * i + i := by ring
  have e3 : i * (B - i) + i * i = i * B :=
    by rw [← Nat.mul_add]; congr 1; omega
  have e4 : 2 ∣ i * i + i := by
    have := Nat.even_mul_succ_self i
    rw [e2] at this
    exact this.two_dvd
  have e5 : i * i ≤ i * B := Nat.mul_le_mul_left i hiB
  rw [e2]
  omega

theorem splitsFor_getElem (N i j k : Nat) (hk1 : 1 ≤ k) (hkN : k < N) :
    (splitsFor N i j)[k - 1]? = some (i, j, k) := by
  unfold splitsFor
  rw [List.getElem?_map, List.getElem?_range' 1 1 (by omega)]
  have hk : 1 + 1 * (k - 1) = k := by omega
  rw [hk]
  rfl

theorem jBlock_getElem (B N i j k : Nat) (hij : i < j) (hjB : j < B)
    (hk1 : 1 ≤ k) (hkN : k < N) :
    (jBlock B N i)[(j - i - 1) * (N - 1) + (k - 1)]? = some (i, j, k) := by
  unfold jBlock
  have hq : (List.range' (i + 1) (B - 1 - i))[j - i - 1]? = some j := by
    rw [List.getElem?_range' (i + 1) 1 (by omega)]
    have : i + 1 + 1 * (j - i - 1) = j := by omega
    rw [this]
  rw [getElem?_flatMap_uniform (splitsFor N i) (N - 1)
    (fun x => splitsFor_length N i x) _ (j - i - 1) (k - 1) (by omega) j hq]
  exact splitsFor_getElem N i j k hk1 hkN

theorem outerAux_getElem (B N : Nat) :
    ∀ fuel i0 i j k, i0 + fuel = B → i0 ≤ i → i < j → j < B → 1 ≤ k → k < N →
      (outerAux B N fuel i0)[segSum B i0 (i - i0) * (N - 1)
          + ((j - i - 1) * (N - 1) + (k - 1))]? = some (i, j, k) := by
  intro fuel
  induction fuel with
  | zero =>
    intro i0 i j k hfu hi0 hij hjB _ _
    omega
  | succ fuel ih =>
    intro i0 i j k hfu hi0 hij hjB hk1 hkN
    show (jBlock B N i0 ++ outerAux B N fuel (i0 + 1))[_]? = _
    by_cases hcase : i = i0
    · subst hcase
      have hz : segSum B i 0 = 0 := rfl
      have hlt : (j - i - 1) * (N - 1) + (k - 1) < (B - 1 - i) * (N - 1) := by
        have h1 : (j - i - 1) * (N - 1) + (k - 1) < (j - i) * (N - 1) :=
          calc (j - i - 1) * (N - 1) + (k - 1)
              < (j - i - 1) * (N - 1) + (N - 1) := by omega
            _ = (j - i - 1 + 1) * (N - 1) := by ring
            _ = (j - i) * (N - 1) := by congr 1; omega
        have h2 : (j - i) * (N - 1) ≤ (B - 1 - i) * (N - 1) :=
          Nat.mul_le_mul_right _ (by omega)
        omega
      rw [Nat.sub_self, hz, Nat.zero_mul, Nat.zero_add,
        List.getElem?_append_left (by rw [jBlock_length]; exact hlt)]
      exact jBlock_getElem B N i j k hij hjB hk1 hkN
    · have hi0i : i0 < i := by omega
      have hc : i - i0 = (i - (i0 + 1)) + 1 := by omega
      rw [hc]
      have hs : segSum B i0 ((i - (i0 + 1)) + 1)
          = (B - 1 - i0) + segSum B (i0 + 1) (i - (i0 + 1)) := rfl
      rw [hs, Nat.add_mul]
      have hlen : (jBlock B N i0).length = (B - 1 - i0) * (N - 1) := jBlock_length B N i0
      rw [List.getElem?_append_right (by rw [hlen]; omega)]
      rw [hlen]
      have hidx : (B - 1 - i0) * (N - 1) + segSum B (i0 + 1) (i - (i0 + 1)) * (N - 1)
            + ((j - i - 1) * (N - 1) + (k - 1)) - (B - 1 - i0) * (N - 1)
          = segSum B (i0 + 1) (i - (i0 + 1)) * (N - 1)
            + ((j - i - 1) * (N - 1) + (k - 1)) := by omega
      rw [hidx]
      exact ih (i0 + 1) i j k (by omega) (by omega) hij hjB hk1 hkN

theorem pairTriples_getElem (B N i j k : Nat) (hij : i < j) (hjB : j < B)
    (hk1 : 1 ≤ k) (hkN : k < N) :
    (pairTriples B N)[tripleCode B N i j k - B]? = some (i, j, k) := by
  have h := outerAux_getElem B N B 0 i j k (by omega) (by omega) hij hjB hk1 hkN
  simp only [Nat.sub_zero] at h
  have hidx : tripleCode B N i j k - B
      = segSum B 0 i * (N - 1) + ((j - i - 1) * (N - 1) + (k - 1)) := by
    unfold tripleCode
    omega
  rw [pairTriples, hidx]
  exact h

theorem tripleCode_lt (B N i j k : Nat) (hij : i < j) (hjB : j < B)
    (hk1 : 1 ≤ k) (hkN : k < N) :
    tripleCode B N i j k < allelicSize B N := by
  have h := pairTriples_getElem B N i j k hij hjB hk1 hkN
  have hlt : tripleCode B N i j k - B < (pairTriples B N).length := by
    rcases List.getElem?_eq_some_iff.mp h with ⟨hl, _⟩
    exact hl
  rw [pairTriples_length] at hlt
  have hB : B ≤ tripleCode B N i j k := Nat.le_add_right B _
  unfold allelicSize
  omega

theorem tripleCode_ge (B N i j k : Nat) : B ≤ tripleCode B N i j k :=
  Nat.le_add_right B _

theorem pairState_mem_table (a : BaseAlphabet) (N i j k : Nat) (hij : i < j)
    (hjB : j < a.size) (hk1 : 1 ≤ k) (hkN : k < N) :
    ((tripleCode a.size N i j k : Int), pairLabel a N i j k) ∈ allelicStates a N := by
  have h := pairTriples_getElem a.size N i j k hij hjB hk1 hkN
  have h2 : (List.enumFrom a.size (pairTriples a.size N))[tripleCode a.size N i j k - a.size]?
      = some (tripleCode a.size N i j k, (i, j, k)) := by
    rw [List.getElem?_enumFrom, h]
    have heq : a.size + (tripleCode a.size N i j k - a.size)
        = tripleCode a.size N i j k := by
      have := tripleCode_ge a.size N i j k
      omega
    simp only [Option.map_some']
    rw [heq]
  have h3 : (tripleCode a.size N i j k, (i, j, k))
      ∈ List.enumFrom a.size (pairTriples a.size N) :=
    List.getElem?_mem h2
  have h4 : ((tripleCode a.size N i j k : Int), pairLabel a N i j k)
      ∈ (List.enumFrom a.size (pairTriples a.size N)).map
          (fun e => ((e.1 : Int), pairLabel a N e.2.1 e.2.2.1 e.2.2.2)) :=
    List.mem_map.mpr ⟨(tripleCode a.size N i j k, (i, j, k)), h3, rfl⟩
  unfold allelicStates
  exact List.mem_cons.mpr (Or.inr (List.mem_append.mpr (Or.inl
    (List.mem_append.mpr (Or.inr h4)))))

theorem homState_mem_table (a : BaseAlphabet) (N i : Nat) (hi : i < a.size) :
    (Int.ofNat i, homLabel a N i) ∈ allelicStates a N := by
  unfold allelicStates
  refine List.mem_cons.mpr (Or.inr (List.mem_append.mpr (Or.inl
    (List.mem_append.mpr (Or.inl ?_)))))
  exact List.mem_map.mpr ⟨i, List.mem_range.mpr hi, rfl⟩

theorem unkState_mem_table (a : BaseAlphabet) (N : Nat) :
    ((allelicSize a.size N : Int), unkLabel a N) ∈ allelicStates a N := by
  unfold allelicStates
  exact List.mem_cons.mpr (Or.inr (List.mem_append.mpr (Or.inr (by simp))))

theorem allelicStates_map_fst (a : BaseAlphabet) (N : Nat) :
    (allelicStates a N).map Prod.fst
      = (-1 : Int) :: (List.range (allelicSize a.size N + 1)).map Int.ofNat := by
  unfold allelicStates
  simp only [List.map_cons, List.map_append, List.map_map]
  congr 1
  have hpair : (List.enumFrom a.size (pairTriples a.size N)).map
        (Prod.fst ∘ fun e => ((e.1 : Int), pairLabel a N e.2.1 e.2.2.1 e.2.2.2))
      = (List.range' a.size (pairTriples a.size N).length).map Int.ofNat := by
    have hcomp : (Prod.fst ∘ fun e : Nat × Nat × Nat × Nat =>
        ((e.1 : Int), pairLabel a N e.2.1 e.2.2.1 e.2.2.2)) = Int.ofNat ∘ Prod.fst := rfl
    rw [hcomp, ← List.map_map, List.enumFrom_map_fst]
  have hhom : (List.range a.size).map
        (Prod.fst ∘ fun i => (Int.ofNat i, homLabel a N i))
      = (List.range a.size).map Int.ofNat := rfl
  rw [hpair, hhom]
  have hsplit : List.range (allelicSize a.size N + 1)
      = List.range a.size ++ List.range' a.size (pairTriples a.size N).length
        ++ [allelicSize a.size N] := by
    rw [pairTriples_length, List.range_eq_range', List.range_eq_range', List.append_assoc]
    have e2 : [allelicSize a.size N]
        = List.range' (a.size + Nat.choose a.size 2 * (N - 1)) 1 := rfl
    rw [e2]
    rw [List.range'_append_1 a.size (Nat.choose a.size 2 * (N - 1)) 1]
    have e4 := List.range'_append_1 0 a.size (1 + Nat.choose a.size 2 * (N - 1))
    simp only [Nat.zero_add] at e4
    rw [e4]
    congr 1
    unfold allelicSize
    omega
  rw [hsplit]
  simp [List.map_append]

theorem allelicStates_fst_nodup (a : BaseAlphabet) (N : Nat) :
    ((allelicStates a N).map Prod.fst).Nodup := by
  rw [allelicStates_map_fst]
  refine List.nodup_cons.mpr ⟨?_, ?_⟩
  · intro hmem
    rcases List.mem_map.mp hmem with ⟨x, _, hx⟩
    exact absurd hx (by simp)
  · exact (List.nodup_range _).map (fun x y h => Int.ofNat.inj h)

end Allelic

namespace Allelic

theorem tripleCode_closed (B N i j k : Nat) (hij : i < j) (hjB : j < B) :
    tripleCode B N i j k
      = B + (i * B - i * (i + 1) / 2 + (j - i - 1)) * (N - 1) + (k - 1) := by
  have hs := segSum_closed B i (by omega)
  unfold tripleCode
  rw [hs, Nat.add_mul]
  omega

theorem allelicStates_length (a : BaseAlphabet) (N : Nat) :
    (allelicStates a N).length = allelicSize a.size N + 2 := by
  unfold allelicStates
  simp only [List.length_cons, List.length_append, List.length_map,
    List.length_range, List.enumFrom_length, List.length_singleton,
    List.length_nil, pairTriples_length]
  unfold allelicSize
  omega

end Allelic

/-- C1, corrected claim, counterexample: the pairing formula printed in
the specification is not injective, hence does not describe the code
space.  With the DNA base alphabet and two alleles it gives the same
value `6` to the pairs `(A, T)` and `(C, G)`, and the code-label pair it
produces for `(C, G, 1)` is not a registered state of the alphabet (the
actual code of that state is `7`). -/
theorem allelicFormula_counterexample :
    Allelic.specFormulaCode 4 2 0 3 1 = Allelic.specFormulaCode 4 2 1 2 1
    ∧ ((Allelic.specFormulaCode 4 2 1 2 1 : Int), Allelic.pairLabel dnaAlph 2 1 2 1)
        ∉ Allelic.allelicStates dnaAlph 2 := by
  constructor
  · rfl
  · decide

/-- C1, corrected: the code space of the `AllelicAlphabet` is linearly
ordered as: gap at `-1`; codes `0 .. size-1` the unmodified base states;
for every pair `i < j` of base states and every split `k` in `1 .. N-1` a
unique code whose value is `baseSize + (rank1*baseSize -
rank1*(rank1+1)/2 + (rank2-rank1-1))*(nbAlleles-1) + (count1-1)` (the
specification printed `rank1*(baseSize-1)` instead of `rank1*baseSize`);
and the final (largest) code is the unknown symbol.  The first conjunct
shows the registered codes are exactly `-1, 0, 1, ..., size` in order,
so each code is unique and the unknown code `size` is the largest. -/
theorem allelic_code_space (a : BaseAlphabet) (N : Nat) :
    (Allelic.allelicStates a N).map Prod.fst
        = (-1 : Int) :: (List.range (Allelic.allelicSize a.size N + 1)).map Int.ofNat
    ∧ ((-1 : Int), Allelic.gapLabel a N) ∈ Allelic.allelicStates a N
    ∧ (∀ i, i < a.size → (Int.ofNat i, Allelic.homLabel a N i) ∈ Allelic.allelicStates a N)
    ∧ (∀ i j k, i < j → j < a.size → 1 ≤ k → k < N →
        Allelic.tripleCode a.size N i j k
            = a.size + (i * a.size - i * (i + 1) / 2 + (j - i - 1)) * (N - 1) + (k - 1)
          ∧ ((Allelic.tripleCode a.size N i j k : Int), Allelic.pairLabel a N i j k)
              ∈ Allelic.allelicStates a N
          ∧ Allelic.tripleCode a.size N i j k < Allelic.allelicSize a.size N)
    ∧ ((Allelic.allelicSize a.size N : Int), Allelic.unkLabel a N)
        ∈ Allelic.allelicStates a N := by
  refine ⟨Allelic.allelicStates_map_fst a N, ?_, ?_, ?_, Allelic.unkState_mem_table a N⟩
  · exact List.mem_cons_self _ _
  · exact fun i hi => Allelic.homState_mem_table a N i hi
  · intro i j k hij hjB hk1 hkN
    exact ⟨Allelic.tripleCode_closed a.size N i j k hij hjB,
      Allelic.pairState_mem_table a N i j k hij hjB hk1 hkN,
      Allelic.tripleCode_lt a.size N i j k hij hjB hk1 hkN⟩

/-- Witness for C1's theorem: the code of the state "one C, two G" in the
3-allele DNA allelic alphabet, evaluated through the corrected formula,
its registration, and the size bound. -/
theorem allelic_code_space_witness :
    Allelic.tripleCode 4 3 1 2 1
        = 4 + (1 * 4 - 1 * (1 + 1) / 2 + (2 - 1 - 1)) * (3 - 1) + (1 - 1)
    ∧ ((Allelic.tripleCode 4 3 1 2 1 : Int), Allelic.pairLabel dnaAlph 3 1 2 1)
        ∈ Allelic.allelicStates dnaAlph 3
    ∧ Allelic.tripleCode 4 3 1 2 1 < Allelic.allelicSize 4 3 :=
  (allelic_code_space dnaAlph 3).2.2.2.1 1 2 1 (by decide) (by decide)
    (by decide) (by decide)

/-- C5, confirmed: `size()` of the allelic alphabet, computed from the
source as `getNumberOfChars() - 2`, equals
`baseSize + C(baseSize,2)*(nbAlleles-1)`, and `numberOfTypes()`,
computed as `getNumberOfChars() - 1`, equals `size() + 1`. -/
theorem allelic_getSize_eq (a : BaseAlphabet) (N : Nat)
    (_hB : 1 ≤ a.size) (_hN : 1 ≤ N) :
    Allelic.getSize a N = a.size + Nat.choose a.size 2 * (N - 1)
    ∧ Allelic.getNumberOfTypes a N = Allelic.getSize a N + 1 := by
  have hlen := Allelic.allelicStates_length a N
  unfold Allelic.getSize Allelic.getNumberOfTypes
  rw [hlen]
  unfold Allelic.allelicSize
  omega

/-- Witness for C5's theorem at the DNA alphabet with four alleles:
`size() = 4 + 6*3 = 22` and `numberOfTypes() = 23`. -/
theorem allelic_getSize_eq_witness :
    Allelic.getSize dnaAlph 4 = 4 + Nat.choose 4 2 * (4 - 1)
    ∧ Allelic.getNumberOfTypes dnaAlph 4 = Allelic.getSize dnaAlph 4 + 1 :=
  allelic_getSize_eq dnaAlph 4 (by decide) (by decide)

/-- C8, confirmed: `AllelicAlphabet::charToInt` rejects every label whose
length differs from `2 * (baseStateWidth + decimalWidth(nbAlleles))` with
`BadCharException`, returning no code. -/
theorem charToInt_length_guard (a : BaseAlphabet) (N : Nat) (s : List Nat)
    (h : s.length ≠ 2 * (a.width + numDigits N)) :
    Allelic.charToInt a N s = .error .badChar := by
  unfold Allelic.charToInt Allelic.getStateCodingSize
  rw [if_pos h]

/-- Witness for C8's theorem: the one-character label "A" is rejected by
the 4-allele DNA allelic alphabet, whose coding width is 4. -/
theorem charToInt_length_guard_witness :
    Allelic.charToInt dnaAlph 4 [65] = .error .badChar :=
  charToInt_length_guard dnaAlph 4 [65] (by decide)

/-- C6, confirmed: for every valid canonical pair label, with `state1`
ranked strictly before `state2` and `count1 + count2 = nbAlleles`,
decoding the encoded label returns the original label:
`codeToStateLabel (stateLabelToCode label) = label`, through the source
`charToInt` (length guard plus table lookup) and the table lookup
`intToChar`. -/
theorem allelic_roundTrip (a : BaseAlphabet) (N i j k : Nat)
    (hw : ∀ r, (a.sym r).length = a.width)
    (hij : i < j) (hjB : j < a.size) (hk1 : 1 ≤ k) (hkN : k < N) :
    (Allelic.charToInt a N (Allelic.pairLabel a N i j k)).bind (Allelic.intToChar a N)
      = .ok (Allelic.pairLabel a N i j k) := by
  have hmem := Allelic.pairState_mem_table a N i j k hij hjB hk1 hkN
  have hlen : (Allelic.pairLabel a N i j k).length = Allelic.getStateCodingSize a N := by
    simp only [Allelic.pairLabel, Allelic.mkLabel, Allelic.getStateCodingSize,
      List.length_append, padNat_length, hw]
    omega
  have hfind : ((Allelic.allelicStates a N).find?
      (fun e => e.2 = Allelic.pairLabel a N i j k)).isSome := by
    rw [List.find?_isSome]
    exact ⟨_, hmem, by simp⟩
  obtain ⟨e, he⟩ := Option.isSome_iff_exists.mp hfind
  have he2 : e.2 = Allelic.pairLabel a N i j k := by
    have := List.find?_some he
    simpa using this
  have heMem : e ∈ Allelic.allelicStates a N := List.mem_of_find?_eq_some he
  have hchar : Allelic.charToInt a N (Allelic.pairLabel a N i j k) = .ok e.1 := by
    unfold Allelic.charToInt Allelic.absCharToInt
    rw [if_neg (by rw [hlen]; simp), he]
  have hfind2 : ((Allelic.allelicStates a N).find? (fun f => f.1 = e.1)).isSome := by
    rw [List.find?_isSome]
    exact ⟨e, heMem, by simp⟩
  obtain ⟨f, hf⟩ := Option.isSome_iff_exists.mp hfind2
  have hf1 : f.1 = e.1 := by simpa using List.find?_some hf
  have hfMem : f ∈ Allelic.allelicStates a N := List.mem_of_find?_eq_some hf
  have hfe : f.2 = e.2 := by
    have hnd := Allelic.allelicStates_fst_nodup a N
    have hfMem' : (e.1, f.2) ∈ Allelic.allelicStates a N := by
      rw [← hf1]
      exact hfMem
    have heMem' : (e.1, e.2) ∈ Allelic.allelicStates a N := heMem
    exact mem_of_nodup_fst _ e.1 f.2 e.2 hnd hfMem' heMem'
  have hint : Allelic.intToChar a N e.1 = .ok f.2 := by
    unfold Allelic.intToChar
    rw [hf]
  rw [hchar]
  show Allelic.intToChar a N e.1 = _
  rw [hint, hfe, he2]

/-- Witness for C6's theorem: the label "A2C1" of the 3-allele DNA
allelic alphabet decodes back to itself. -/
theorem allelic_roundTrip_witness :
    (Allelic.charToInt dnaAlph 3 (Allelic.pairLabel dnaAlph 3 0 1 2)).bind
        (Allelic.intToChar dnaAlph 3) = .ok (Allelic.pairLabel dnaAlph 3 0 1 2) :=
  allelic_roundTrip dnaAlph 3 0 1 2 (fun _ => rfl) (by decide) (by decide)
    (by decide) (by decide)

theorem foldl_set_length {β : Type _} (idx : Nat → Nat) (val : Nat → β) :
    ∀ (ks : List Nat) (out : List β),
      (ks.foldl (fun o k => o.set (idx k) (val k)) out).length = out.length := by
  intro ks
  induction ks with
  | nil => intro out; rfl
  | cons k0 rest ih =>
    intro out
    rw [List.foldl_cons, ih, List.length_set]

theorem foldl_set_getElem?_of_ne {β : Type _} (idx : Nat → Nat) (val : Nat → β) :
    ∀ (ks : List Nat) (out : List β) (m : Nat), (∀ k ∈ ks, idx k ≠ m) →
      (ks.foldl (fun o k => o.set (idx k) (val k)) out)[m]? = out[m]? := by
  intro ks
  induction ks with
  | nil => intro out m _; rfl
  | cons k0 rest ih =>
    intro out m hne
    rw [List.foldl_cons, ih _ m (fun k hk => hne k (List.mem_cons_of_mem _ hk))]
    exact List.getElem?_set_ne (hne k0 (List.mem_cons_self _ _))

theorem foldl_set_getElem?_of_mem {β : Type _} (idx : Nat → Nat) (val : Nat → β) :
    ∀ (ks : List Nat) (out : List β) (k : Nat), k ∈ ks →
      (∀ k' ∈ ks, idx k' = idx k → k' = k) → idx k < out.length →
      (ks.foldl (fun o k => o.set (idx k) (val k)) out)[idx k]? = some (val k) := by
  intro ks
  induction ks with
  | nil => intro out k hk; simp at hk
  | cons k0 rest ih =>
    intro out k hk huniq hlt
    rw [List.foldl_cons]
    by_cases hkrest : k ∈ rest
    · exact ih _ k hkrest (fun k' h1 h2 => huniq k' (List.mem_cons_of_mem _ h1) h2)
        (by rw [List.length_set]; exact hlt)
    · have hk0 : k = k0 := by
        rcases List.mem_cons.mp hk with h | h
        · exact h
        · exact absurd h hkrest
      subst hk0
      rw [foldl_set_getElem?_of_ne idx val rest _ _ ?_]
      · exact List.getElem?_set_self hlt
      · intro k' hk' heq
        exact absurd (huniq k' (List.mem_cons_of_mem _ hk') heq ▸ hk') hkrest

theorem set_replicate_getElem? {β : Type _} (n t : Nat) (zero one : β) (m : Nat)
    (ht : t < n) (hm : m < n) :
    ((List.replicate n zero).set t one)[m]? = some (if m = t then one else zero) := by
  by_cases hmt : m = t
  · subst hmt
    rw [List.getElem?_set_self (by simpa using ht)]
    simp
  · rw [List.getElem?_set_ne (fun h => hmt h.symm), List.getElem?_replicate_of_lt hm]
    simp [hmt]

namespace Allelic

theorem nonZeroIndices_mem_lt (counts : List ℚ) :
    ∀ x ∈ nonZeroIndices counts, x < counts.length := by
  intro x hx
  exact List.mem_range.mp (List.mem_of_mem_filter hx)

theorem nonZeroIndices_pairwise (counts : List ℚ) :
    (nonZeroIndices counts).Pairwise (· < ·) :=
  (List.pairwise_lt_range _).filter _

end Allelic

/-- C2, confirmed (spec-modelled): `computeLikelihoods` on a count vector
of length `baseSize` with non-negative entries: with more than two
nonzero entries every output entry is `0` except the unknown-code slot,
which is `1`; with exactly one nonzero entry the homozygous code of that
state gets likelihood `1` and all other entries `0`; with exactly two
nonzero entries at `i < j`, the entry at the code of split `k` equals
`C(N,k) * p^k * (1-p)^(N-k)` with `p = counts[i]/total` for every
`k = 1 .. N-1`, the homozygous outcomes `k = N` and `k = 0` land on the
plain base-state codes `i` and `j`, and all remaining entries are `0`. -/
theorem computeLikelihoods_spec (B N : Nat) (counts : List ℚ)
    (hlen : counts.length = B) (_hpos : ∀ x ∈ counts, 0 ≤ x) :
    ((Allelic.nonZeroIndices counts).length > 2 →
      ∀ m, m < Allelic.allelicSize B N + 1 →
        (Allelic.computeLikelihoods B N counts)[m]?
          = some (if m = Allelic.allelicSize B N then 1 else 0))
    ∧ (∀ i, Allelic.nonZeroIndices counts = [i] →
        ∀ m, m < Allelic.allelicSize B N + 1 →
          (Allelic.computeLikelihoods B N counts)[m]?
            = some (if m = i then 1 else 0))
    ∧ (∀ i j, Allelic.nonZeroIndices counts = [i, j] →
        (∀ k, 1 ≤ k → k < N →
          (Allelic.computeLikelihoods B N counts)[Allelic.tripleCode B N i j k]?
            = some (Allelic.binomQ N k
                (counts.getD i 0 / (counts.getD i 0 + counts.getD j 0))))
        ∧ (Allelic.computeLikelihoods B N counts)[i]?
            = some (Allelic.binomQ N N
                (counts.getD i 0 / (counts.getD i 0 + counts.getD j 0)))
        ∧ (Allelic.computeLikelihoods B N counts)[j]?
            = some (Allelic.binomQ N 0
                (counts.getD i 0 / (counts.getD i 0 + counts.getD j 0)))
        ∧ (∀ m, m < Allelic.allelicSize B N + 1 → m ≠ i → m ≠ j →
            (∀ k, 1 ≤ k → k < N → m ≠ Allelic.tripleCode B N i j k) →
            (Allelic.computeLikelihoods B N counts)[m]? = some 0)) := by
  refine ⟨?_, ?_, ?_⟩
  · -- more than two nonzero entries
    intro hgt2 m hm
    obtain ⟨x, y, z, rest, hl⟩ :
        ∃ x y z rest, Allelic.nonZeroIndices counts = x :: y :: z :: rest := by
      cases h0 : Allelic.nonZeroIndices counts with
      | nil => rw [h0] at hgt2; simp at hgt2
      | cons x t1 =>
        cases t1 with
        | nil => rw [h0] at hgt2; simp at hgt2
        | cons y t2 =>
          cases t2 with
          | nil => rw [h0] at hgt2; simp at hgt2
          | cons z rest => exact ⟨x, y, z, rest, rfl⟩
    simp only [Allelic.computeLikelihoods, hl]
    exact set_replicate_getElem? _ _ _ _ m (by omega) hm
  · -- exactly one nonzero entry
    intro i hl m hm
    have hiB : i < B := by
      rw [← hlen]
      exact Allelic.nonZeroIndices_mem_lt counts i (by rw [hl]; simp)
    simp only [Allelic.computeLikelihoods, hl]
    exact set_replicate_getElem? _ _ _ _ m (by unfold Allelic.allelicSize; omega) hm
  · -- exactly two nonzero entries
    intro i j hl
    have hiB : i < B := by
      rw [← hlen]
      exact Allelic.nonZeroIndices_mem_lt counts i (by rw [hl]; simp)
    have hjB : j < B := by
      rw [← hlen]
      exact Allelic.nonZeroIndices_mem_lt counts j (by rw [hl]; simp)
    have hij : i < j := by
      have hp := Allelic.nonZeroIndices_pairwise counts
      rw [hl] at hp
      exact (List.pairwise_cons.mp hp).1 j (by simp)
    have hcodeGe : ∀ k, B ≤ Allelic.tripleCode B N i j k :=
      fun k => Allelic.tripleCode_ge B N i j k
    have hcodeLt : ∀ k, 1 ≤ k → k < N →
        Allelic.tripleCode B N i j k < Allelic.allelicSize B N :=
      fun k hk1 hkN => Allelic.tripleCode_lt B N i j k hij hjB hk1 hkN
    have hbase : (((List.replicate (Allelic.allelicSize B N + 1) (0 : ℚ)).set i
          ((counts.getD i 0 / (counts.getD i 0 + counts.getD j 0)) ^ N)).set j
          ((1 - counts.getD i 0 / (counts.getD i 0 + counts.getD j 0)) ^ N)).length
        = Allelic.allelicSize B N + 1 := by
      simp [List.length_set, List.length_replicate]
    have hsizeB : B ≤ Allelic.allelicSize B N := by
      unfold Allelic.allelicSize; omega
    refine ⟨?_, ?_, ?_, ?_⟩
    · -- the split codes carry the binomial mass
      intro k hk1 hkN
      simp only [Allelic.computeLikelihoods, hl]
      rw [foldl_set_getElem?_of_mem _ _ _ _ k
        (List.mem_range'_1.mpr (by omega))
        (fun k' hk' heq => by
          have hk'1 : 1 ≤ k' := (List.mem_range'_1.mp hk').1
          unfold Allelic.tripleCode at heq
          omega)
        (by rw [hbase]; have := hcodeLt k hk1 hkN; omega)]
    · -- homozygous outcome on the first state
      simp only [Allelic.computeLikelihoods, hl]
      rw [foldl_set_getElem?_of_ne _ _ _ _ i
        (fun k hk => by have := hcodeGe k; omega)]
      rw [List.getElem?_set_ne (by omega)]
      rw [List.getElem?_set_self (by simp [List.length_replicate]; omega)]
      have : Allelic.binomQ N N
          (counts.getD i 0 / (counts.getD i 0 + counts.getD j 0))
          = (counts.getD i 0 / (counts.getD i 0 + counts.getD j 0)) ^ N := by
        simp [Allelic.binomQ, Nat.choose_self, Nat.sub_self]
      rw [this]
    · -- homozygous outcome on the second state
      simp only [Allelic.computeLikelihoods, hl]
      rw [foldl_set_getElem?_of_ne _ _ _ _ j
        (fun k hk => by have := hcodeGe k; omega)]
      rw [List.getElem?_set_self (by simp [List.length_set, List.length_replicate]; omega)]
      have : Allelic.binomQ N 0
          (counts.getD i 0 / (counts.getD i 0 + counts.getD j 0))
          = (1 - counts.getD i 0 / (counts.getD i 0 + counts.getD j 0)) ^ N := by
        simp [Allelic.binomQ]
      rw [this]
    · -- every other entry stays zero
      intro m hm hmi hmj hmk
      simp only [Allelic.computeLikelihoods, hl]
      rw [foldl_set_getElem?_of_ne _ _ _ _ m
        (fun k hk => by
          have hk1 := (List.mem_range'_1.mp hk).1
          have hk2 := (List.mem_range'_1.mp hk).2
          exact fun heq => hmk k hk1 (by omega) heq.symm)]
      rw [List.getElem?_set_ne (fun h => hmj h.symm),
        List.getElem?_set_ne (fun h => hmi h.symm),
        List.getElem?_replicate_of_lt hm]

/-- Witness for C2's theorem: counts `(A:3, C:1)` over DNA with four
alleles put binomial mass `C(4,3)*(3/4)^3*(1/4) = 27/64` on the code of
the split "three copies of A, one copy of C". -/
theorem computeLikelihoods_spec_witness :
    (Allelic.computeLikelihoods 4 4 [3, 1, 0, 0])[Allelic.tripleCode 4 4 0 1 3]?
      = some (Allelic.binomQ 4 3
          (([3, 1, 0, 0] : List ℚ).getD 0 0
            / (([3, 1, 0, 0] : List ℚ).getD 0 0 + ([3, 1, 0, 0] : List ℚ).getD 1 0))) :=
  ((computeLikelihoods_spec 4 4 [3, 1, 0, 0] (by decide)
      (by decide)).2.2 0 1 (by decide)).1 3 (by decide) (by decide)

namespace CVS

theorem getSiteIndex_le (s : CStore) (content : List Int) :
    getSiteIndex_ s content ≤ s.uniqueSites.length := by
  unfold getSiteIndex_
  cases h : s.uniqueSites.findIdx? (fun site => site = content) with
  | none => simp
  | some idx =>
    have := (List.findIdx?_eq_some_iff_findIdx_eq.mp h).1
    simpa using Nat.le_of_lt this

theorem getSiteIndex_of_mem (s : CStore) (content : List Int)
    (h : content ∈ s.uniqueSites) :
    getSiteIndex_ s content < s.uniqueSites.length
    ∧ s.uniqueSites[getSiteIndex_ s content]? = some content := by
  have hex : ∃ x, x ∈ s.uniqueSites ∧ (fun site => site = content : List Int → Bool) x := by
    exact ⟨content, h, by simp⟩
  have hsome := List.findIdx?_eq_some_of_exists hex
  rcases List.findIdx?_eq_some_iff_getElem.mp hsome with ⟨hlt, hp, _⟩
  have hidx : getSiteIndex_ s content = s.uniqueSites.findIdx (fun site => site = content) := by
    unfold getSiteIndex_
    rw [hsome]
    rfl
  constructor
  · rw [hidx]; exact hlt
  · rw [hidx]
    rw [List.getElem?_eq_getElem hlt]
    simpa using hp

theorem getSiteIndex_of_not_mem (s : CStore) (content : List Int)
    (h : content ∉ s.uniqueSites) :
    getSiteIndex_ s content = s.uniqueSites.length := by
  unfold getSiteIndex_
  have hnone : s.uniqueSites.findIdx? (fun site => site = content) = none := by
    rw [List.findIdx?_eq_none_iff]
    intro x hx
    simp only [decide_eq_false_iff_not]
    exact fun hxc => h (hxc ▸ hx)
  rw [hnone]
  rfl

theorem getSiteIndex_not_mem_of_eq_length (s : CStore) (content : List Int)
    (h : getSiteIndex_ s content = s.uniqueSites.length) :
    content ∉ s.uniqueSites := by
  intro hmem
  have := (getSiteIndex_of_mem s content hmem).1
  omega

theorem addSite_ok (s s' : CStore) (content : List Int)
    (h : addSite s content = .ok s') :
    content.length = s.nRows
    ∧ ((getSiteIndex_ s content < s.uniqueSites.length
        ∧ s' = ⟨s.nRows, s.uniqueSites, s.index_ ++ [getSiteIndex_ s content]⟩)
      ∨ (getSiteIndex_ s content = s.uniqueSites.length
        ∧ content ∉ s.uniqueSites
        ∧ s' = ⟨s.nRows, s.uniqueSites ++ [content],
            s.index_ ++ [getSiteIndex_ s content]⟩)) := by
  by_cases hdim : content.length = s.nRows
  · refine ⟨hdim, ?_⟩
    rw [addSite, if_neg (by simpa using hdim)] at h
    by_cases hfound : getSiteIndex_ s content < s.uniqueSites.length
    · left
      simp only [hfound, if_true] at h
      exact ⟨hfound, by injection h with h2; exact h2.symm⟩
    · right
      have heq : getSiteIndex_ s content = s.uniqueSites.length := by
        have := getSiteIndex_le s content
        omega
      simp only [hfound, if_false] at h
      exact ⟨heq, getSiteIndex_not_mem_of_eq_length s content heq,
        by injection h with h2; exact h2.symm⟩
  · rw [addSite, if_pos (by simpa using hdim)] at h
    exact absurd h (by simp)

theorem insertSiteAt_ok (s s' : CStore) (pos : Nat) (content : List Int)
    (h : insertSiteAt s pos content = .ok s') :
    content.length = s.nRows ∧ pos ≤ s.index_.length
    ∧ ((getSiteIndex_ s content < s.uniqueSites.length
        ∧ s' = ⟨s.nRows, s.uniqueSites,
            s.index_.insertIdx pos (getSiteIndex_ s content)⟩)
      ∨ (getSiteIndex_ s content = s.uniqueSites.length
        ∧ content ∉ s.uniqueSites
        ∧ s' = ⟨s.nRows, s.uniqueSites ++ [content],
            s.index_.insertIdx pos (getSiteIndex_ s content)⟩)) := by
  by_cases hdim : content.length = s.nRows
  · by_cases hpos : pos ≤ s.index_.length
    · refine ⟨hdim, hpos, ?_⟩
      rw [insertSiteAt, if_neg (by simpa using hdim), if_pos hpos] at h
      by_cases hfound : getSiteIndex_ s content < s.uniqueSites.length
      · left
        simp only [hfound, if_true] at h
        exact ⟨hfound, by injection h with h2; exact h2.symm⟩
      · right
        have heq : getSiteIndex_ s content = s.uniqueSites.length := by
          have := getSiteIndex_le s content
          omega
        simp only [hfound, if_false] at h
        exact ⟨heq, getSiteIndex_not_mem_of_eq_length s content heq,
          by injection h with h2; exact h2.symm⟩
    · rw [insertSiteAt, if_neg (by simpa using hdim), if_neg hpos] at h
      exact absurd h (by simp)
  · rw [insertSiteAt, if_pos (by simpa using hdim)] at h
    exact absurd h (by simp)

theorem removeSite_ok (s s' : CStore) (pos : Nat)
    (h : removeSite s pos = .ok s') :
    pos < s.index_.length
    ∧ s' = ⟨s.nRows, s.uniqueSites, s.index_.eraseIdx pos⟩ := by
  by_cases hpos : pos < s.index_.length
  · rw [removeSite, if_pos hpos] at h
    exact ⟨hpos, by injection h with h2; exact h2.symm⟩
  · rw [removeSite, if_neg hpos] at h
    exact absurd h (by simp)

theorem reach_invariant (n : Nat) (b : Bool) (s : CStore) (h : Reach n b s) :
    (∀ slot ∈ s.index_, slot < s.uniqueSites.length)
    ∧ s.uniqueSites.Nodup
    ∧ (b = false → s.uniqueSites.length ≤ s.index_.length) := by
  induction h with
  | empty => exact ⟨by simp [emptyStore], by simp [emptyStore], fun _ => by simp [emptyStore]⟩
  | @append s0 s' c _ hstep ih =>
    rcases addSite_ok s0 s' c hstep with ⟨_, hcase | hcase⟩
    · rcases hcase with ⟨hlt, rfl⟩
      refine ⟨?_, ih.2.1, ?_⟩
      · intro slot hslot
        rcases List.mem_append.mp hslot with hmem | hmem
        · exact ih.1 slot hmem
        · rw [List.mem_singleton.mp hmem]
          exact hlt
      · intro hb
        have := ih.2.2 hb
        simp only [List.length_append, List.length_singleton]
        omega
    · rcases hcase with ⟨heq, hnmem, rfl⟩
      refine ⟨?_, ?_, ?_⟩
      · intro slot hslot
        simp only [List.length_append, List.length_singleton]
        rcases List.mem_append.mp hslot with hmem | hmem
        · have := ih.1 slot hmem
          omega
        · rw [List.mem_singleton.mp hmem, heq]
          omega
      · exact List.nodup_append.mpr ⟨ih.2.1, List.nodup_singleton c,
          fun x hx hx1 => hnmem ((List.mem_singleton.mp hx1) ▸ hx)⟩
      · intro hb
        have := ih.2.2 hb
        simp only [List.length_append, List.length_singleton]
        omega
  | @insert s0 s' p c _ hstep ih =>
    rcases insertSiteAt_ok s0 s' p c hstep with ⟨_, hpos, hcase | hcase⟩
    · rcases hcase with ⟨hlt, rfl⟩
      refine ⟨?_, ih.2.1, ?_⟩
      · intro slot hslot
        rcases (List.mem_insertIdx hpos).mp hslot with hmem | hmem
        · rw [hmem]; exact hlt
        · exact ih.1 slot hmem
      · intro hb
        have := ih.2.2 hb
        dsimp only
        rw [List.length_insertIdx p _ hpos]
        omega
    · rcases hcase with ⟨heq, hnmem, rfl⟩
      refine ⟨?_, ?_, ?_⟩
      · intro slot hslot
        simp only [List.length_append, List.length_singleton]
        rcases (List.mem_insertIdx hpos).mp hslot with hmem | hmem
        · rw [hmem, heq]; omega
        · have := ih.1 slot hmem
          omega
      · exact List.nodup_append.mpr ⟨ih.2.1, List.nodup_singleton c,
          fun x hx hx1 => hnmem ((List.mem_singleton.mp hx1) ▸ hx)⟩
      · intro hb
        have := ih.2.2 hb
        dsimp only
        rw [List.length_insertIdx p _ hpos]
        simp only [List.length_append, List.length_singleton]
        omega
  | @remove s0 s' p hb _ hstep ih =>
    rcases removeSite_ok s0 s' p hstep with ⟨hpos, rfl⟩
    refine ⟨?_, ih.2.1, ?_⟩
    · intro slot hslot
      rcases List.mem_eraseIdx_iff_getElem?.mp hslot with ⟨q, _, hget⟩
      exact ih.1 slot (List.getElem?_mem hget)
    · intro hb'
      rw [hb] at hb'
      exact absurd hb' (by simp)

end CVS

/-- C3, corrected claim, counterexample: the store obtained by appending
the one-column content `[0]` to an empty one-row store and then removing
that column position is reachable, yet has one unique site and zero
logical columns, so `uniqueSites.size() ≤ positionIndex.size()` fails
(removal keeps the orphaned unique entry). -/
theorem compressed_invariant_counterexample :
    CVS.Reach 1 true ⟨1, [[0]], []⟩
    ∧ ¬(CVS.getNumberOfUniqueSites ⟨1, [[0]], []⟩
        ≤ CVS.getNumberOfSites ⟨1, [[0]], []⟩) := by
  constructor
  · have h1 : CVS.Reach 1 true ⟨1, [[0]], [0]⟩ :=
      @CVS.Reach.append 1 true (CVS.emptyStore 1) ⟨1, [[0]], [0]⟩ [0]
        CVS.Reach.empty rfl
    exact @CVS.Reach.remove 1 true ⟨1, [[0]], [0]⟩ ⟨1, [[0]], []⟩ 0 rfl h1 rfl
  · decide

/-- C3, corrected: in every reachable state of the compressed site store,
every slot reference in `positionIndex` is a valid index into
`uniqueSites` and any two logical columns with identical per-sequence
content reference the same slot; `uniqueSites.size() ≤
positionIndex.size()` holds in every state reachable without column
removal (it can fail once a column is removed, since the orphaned unique
entry is kept); and appending the same column content twice to an empty
store yields one unique column and two logical columns with structurally
equal column reads. -/
theorem compressed_invariant (n : Nat) (b : Bool) (s : CVS.CStore)
    (h : CVS.Reach n b s) :
    (∀ slot ∈ s.index_, slot < s.uniqueSites.length)
    ∧ (∀ (p q sp sq : Nat), s.index_[p]? = some sp → s.index_[q]? = some sq →
        s.uniqueSites[sp]? = s.uniqueSites[sq]? → sp = sq)
    ∧ (b = false → CVS.getNumberOfUniqueSites s ≤ CVS.getNumberOfSites s)
    ∧ (∀ content : List Int, content.length = n →
        ∀ s1 s2, CVS.addSite (CVS.emptyStore n) content = .ok s1 →
          CVS.addSite s1 content = .ok s2 →
          CVS.getNumberOfUniqueSites s2 = 1 ∧ CVS.getNumberOfSites s2 = 2
          ∧ CVS.getSite s2 0 = CVS.getSite s2 1) := by
  obtain ⟨hvalid, hnodup, hsize⟩ := CVS.reach_invariant n b s h
  refine ⟨hvalid, ?_, hsize, ?_⟩
  · intro p q sp sq hp hq heq
    have hsp : sp < s.uniqueSites.length := hvalid sp (List.getElem?_mem hp)
    exact List.getElem?_inj hsp hnodup heq
  · intro content hc s1 s2 h1 h2
    have hs1 : s1 = ⟨n, [content], [0]⟩ := by
      simp [CVS.addSite, CVS.emptyStore, CVS.getSiteIndex_, hc] at h1
      exact h1.symm
    subst hs1
    have hs2 : s2 = ⟨n, [content], [0, 0]⟩ := by
      simp [CVS.addSite, CVS.getSiteIndex_, hc] at h2
      exact h2.symm
    subst hs2
    exact ⟨rfl, rfl, rfl⟩

/-- Witness for C3's theorem: the store reached by appending `[0, 1]`
twice to an empty two-row store satisfies the no-removal size
inequality, and the double append of `[7, 8]` gives one unique column
and two equal column reads. -/
theorem compressed_invariant_witness :
    (CVS.getNumberOfUniqueSites ⟨2, [[0, 1]], [0, 0]⟩
      ≤ CVS.getNumberOfSites ⟨2, [[0, 1]], [0, 0]⟩)
    ∧ (CVS.getNumberOfUniqueSites ⟨2, [[7, 8]], [0, 0]⟩ = 1
      ∧ CVS.getNumberOfSites ⟨2, [[7, 8]], [0, 0]⟩ = 2
      ∧ CVS.getSite ⟨2, [[7, 8]], [0, 0]⟩ 0 = CVS.getSite ⟨2, [[7, 8]], [0, 0]⟩ 1) := by
  have hr1 : CVS.Reach 2 false ⟨2, [[0, 1]], [0]⟩ :=
    @CVS.Reach.append 2 false (CVS.emptyStore 2) ⟨2, [[0, 1]], [0]⟩ [0, 1]
      CVS.Reach.empty rfl
  have hreach : CVS.Reach 2 false ⟨2, [[0, 1]], [0, 0]⟩ :=
    @CVS.Reach.append 2 false ⟨2, [[0, 1]], [0]⟩ ⟨2, [[0, 1]], [0, 0]⟩ [0, 1]
      hr1 rfl
  have h := compressed_invariant 2 false ⟨2, [[0, 1]], [0, 0]⟩ hreach
  exact ⟨h.2.2.1 rfl, h.2.2.2 [7, 8] (by decide) ⟨2, [[7, 8]], [0]⟩
    ⟨2, [[7, 8]], [0, 0]⟩ rfl rfl⟩

/-- C4, corrected claim, counterexample: removing row `0` from a store
with two rows and one column does not return a store with the row
removed from `uniqueSites`; it fails with `NotImplementedException`. -/
theorem removeSequence_counterexample :
    CVS.removeSequence ⟨2, [[0, 1]], [0]⟩ 0 = .error .notImplemented := rfl

/-- C4, corrected: row-level removal is not supported by
`CompressedVectorSiteContainer`: for every store and every row index,
`removeSequence` unconditionally fails with `NotImplementedException`
("Implementing this function would involve (partially) decompressing the
data...") and no row is removed from any entry of `uniqueSites`. -/
theorem removeSequence_notImplemented (s : CVS.CStore) (rowIndex : Nat) :
    CVS.removeSequence s rowIndex = .error .notImplemented := rfl

/-- C7, confirmed (spec-modelled): for every valid logical position,
`removeSite` removes only the slot reference at that position, leaving
`uniqueSites` untouched, so `numberOfUniqueColumns()` is unchanged even
when the removed slot becomes unreferenced. -/
theorem removeSite_frame (s : CVS.CStore) (pos : Nat)
    (h : pos < s.index_.length) :
    CVS.removeSite s pos = .ok ⟨s.nRows, s.uniqueSites, s.index_.eraseIdx pos⟩
    ∧ ∀ s', CVS.removeSite s pos = .ok s' →
        s'.uniqueSites = s.uniqueSites
        ∧ CVS.getNumberOfUniqueSites s' = CVS.getNumberOfUniqueSites s := by
  constructor
  · rw [CVS.removeSite, if_pos h]
  · intro s' hs'
    rcases CVS.removeSite_ok s s' pos hs' with ⟨_, rfl⟩
    exact ⟨rfl, rfl⟩

/-- Witness for C7's theorem: removing position `0` of a two-column
store keeps both unique entries, including the now-orphaned one. -/
theorem removeSite_frame_witness :
    CVS.removeSite ⟨1, [[5], [6]], [0, 1]⟩ 0
      = .ok ⟨1, [[5], [6]], [(0 : Nat), 1].eraseIdx 0⟩
    ∧ ∀ s', CVS.removeSite ⟨1, [[5], [6]], [0, 1]⟩ 0 = .ok s' →
        s'.uniqueSites = [[5], [6]]
        ∧ CVS.getNumberOfUniqueSites s'
            = CVS.getNumberOfUniqueSites ⟨1, [[5], [6]], [0, 1]⟩ :=
  removeSite_frame ⟨1, [[5], [6]], [0, 1]⟩ 0 (by decide)

/-- C9, corrected claim, counterexample: out-of-bounds accesses do not
uniformly fail with `IndexOutOfRangeError`: `removeSequence` with an
out-of-bounds row index fails with `NotImplementedException`, and
`getSite` performs no bounds check at all (the out-of-bounds read of
`index_` is C++ undefined behaviour, not an exception). -/
theorem cvs_bounds_counterexample :
    CVS.removeSequence ⟨2, [[0, 1]], [0]⟩ 99 = .error .notImplemented
    ∧ Err.notImplemented ≠ Err.indexOutOfRange
    ∧ CVS.getSite ⟨2, [[0, 1]], [0]⟩ 3 = .error .undefinedBehavior := by
  exact ⟨rfl, by decide, rfl⟩

/-- C9, corrected: the index-based `valueAt` checks its sequence index
and its element index and fails with `IndexOutOfBoundsException` before
any access when either is out of bounds, and the (spec-modelled)
`removeSite` fails with `IndexOutOfBoundsException` on an out-of-bounds
position without mutating the store; `getSite` however performs no bounds
check of its own, and `removeSequence` fails with
`NotImplementedException` for every index. -/
theorem cvs_bounds_checks (s : CVS.CStore) (q e pos : Nat)
    (hq : s.nRows ≤ q ∨ s.index_.length ≤ e) (hpos : s.index_.length ≤ pos) :
    CVS.valueAt s q e = .error .indexOutOfRange
    ∧ CVS.removeSite s pos = .error .indexOutOfRange
    ∧ ∀ rowIndex, CVS.removeSequence s rowIndex = .error .notImplemented := by
  refine ⟨?_, ?_, fun _ => rfl⟩
  · rw [CVS.valueAt]
    rcases hq with h | h
    · rw [if_pos (by omega)]
    · by_cases h2 : q ≥ s.nRows
      · rw [if_pos h2]
      · rw [if_neg h2, if_pos (by omega)]
  · rw [CVS.removeSite, if_neg (by omega)]

/-- Witness for C9's theorem: on a one-column, two-row store, `valueAt`
with sequence index `5` and `removeSite` at position `7` both fail with
`IndexOutOfBoundsException`. -/
theorem cvs_bounds_checks_witness :
    CVS.valueAt ⟨2, [[0, 1]], [0]⟩ 5 0 = .error .indexOutOfRange
    ∧ CVS.removeSite ⟨2, [[0, 1]], [0]⟩ 7 = .error .indexOutOfRange
    ∧ ∀ rowIndex, CVS.removeSequence ⟨2, [[0, 1]], [0]⟩ rowIndex
        = .error .notImplemented :=
  cvs_bounds_checks ⟨2, [[0, 1]], [0]⟩ 5 0 7 (Or.inl (by decide)) (by decide)

/-- C10, confirmed (spec-modelled): the internal lookup `getSiteIndex_`
returns the slot of a stored unique site with equal content when one
exists, and otherwise returns exactly `getNumberOfUniqueSites()` as the
not-found sentinel. -/
theorem getSiteIndex_spec (s : CVS.CStore) (content : List Int) :
    (content ∈ s.uniqueSites →
      CVS.getSiteIndex_ s content < CVS.getNumberOfUniqueSites s
      ∧ s.uniqueSites[CVS.getSiteIndex_ s content]? = some content)
    ∧ (content ∉ s.uniqueSites →
      CVS.getSiteIndex_ s content = CVS.getNumberOfUniqueSites s) :=
  ⟨fun h => CVS.getSiteIndex_of_mem s content h,
    fun h => CVS.getSiteIndex_of_not_mem s content h⟩

/-- Witness for C10's theorem: in a store with two unique sites, the
content `[2, 3]` is found at slot `1`, and the content `[9, 9]` yields
the sentinel `2`. -/
theorem getSiteIndex_spec_witness :
    (CVS.getSiteIndex_ ⟨2, [[0, 1], [2, 3]], [0, 1]⟩ [2, 3]
        < CVS.getNumberOfUniqueSites ⟨2, [[0, 1], [2, 3]], [0, 1]⟩
      ∧ ([[0, 1], [2, 3]] : List (List Int))[CVS.getSiteIndex_
          ⟨2, [[0, 1], [2, 3]], [0, 1]⟩ [2, 3]]? = some [2, 3])
    ∧ CVS.getSiteIndex_ ⟨2, [[0, 1], [2, 3]], [0, 1]⟩ [9, 9]
        = CVS.getNumberOfUniqueSites ⟨2, [[0, 1], [2, 3]], [0, 1]⟩ :=
  ⟨(getSiteIndex_spec ⟨2, [[0, 1], [2, 3]], [0, 1]⟩ [2, 3]).1 (by decide),
    (getSiteIndex_spec ⟨2, [[0, 1], [2, 3]], [0, 1]⟩ [9, 9]).2 (by decide)⟩
